import Mathlib

/-! Verification of the gomemo memoization library: a shallow embedding of the
cache-entry model, the in-memory backend, the memoizer orchestration, the
metrics collector, the backend registry, the argument-hashing utility and an
interleaving model of the single-flight deduplication coordinator, together
with theorems settling the specification claims.

Conventions of the embedding:
* wall-clock instants and durations are `Int` values counted in nanoseconds
  (Go `time.Time.UnixNano` and `time.Duration`);
* Go `uint64` counters are `Nat` values reduced modulo `2 ^ 64` where they are
  incremented; Go `int64` arithmetic that can overflow is wrapped explicitly;
* fallible Go code returning `error` is embedded with `Except` or `Option`; a
  Go panic is the `Except.error` branch of the embedding of the panicking
  function;
* `float64`-valued statistics (`HitRatio`, `AvgLatency`) are embedded as exact
  rationals: at the small integer arguments of the claims the IEEE-754 double
  operations are exact, so the rational value coincides with the Go result.
-/

namespace Gomemo

/-- Modulus of Go `uint64` arithmetic. -/
def U64 : Nat := 2 ^ 64

/-- Embedding of `backends.CacheEntry`: stored value, absolute expiry in unix
nanoseconds (`0` is the no-expiration sentinel) and a `uint64` version
counter. The opaque `any` payload is fixed to `Nat`. -/
structure CacheEntry where
  value : Nat
  expiry : Int
  version : Nat
deriving DecidableEq

/-- Embedding of `backends.NewEntry`: with a positive ttl the expiry is
`now + ttl`, otherwise the no-expiration sentinel `0`. -/
def newEntry (v : Nat) (ttl : Int) (ver : Nat) (now : Int) : CacheEntry :=
  { value := v
    expiry := if ttl > 0 then now + ttl else 0
    version := ver }

/-- Embedding of `CacheEntry.IsExpired`: an entry with the sentinel expiry `0`
never expires; otherwise it is expired exactly when `now > expiry`. -/
def CacheEntry.isExpired (e : CacheEntry) (now : Int) : Bool :=
  if e.expiry = 0 then false else decide (now > e.expiry)

/-- Embedding of `CacheEntry.SetExpiry`: replaces only the expiry field, with
the same ttl-to-expiry computation as `NewEntry`. -/
def CacheEntry.setExpiry (e : CacheEntry) (ttl : Int) (now : Int) : CacheEntry :=
  { e with expiry := if ttl > 0 then now + ttl else 0 }

/-- Embedding of `CacheEntry.BumpVersion`: increments the `uint64` version and
returns the new value together with the updated entry. -/
def CacheEntry.bumpVersion (e : CacheEntry) : Nat × CacheEntry :=
  ((e.version + 1) % U64, { e with version := (e.version + 1) % U64 })

/-- State of the `memory.Memory` backend: the `entries` map, embedded as an
association list in which each key occurs at most once. -/
abbrev Mem := List (String × CacheEntry)

/-- Lookup of a key in the entries map. -/
def lookupKey : Mem → String → Option CacheEntry
  | [], _ => none
  | (k, e) :: rest, key => if k = key then some e else lookupKey rest key

/-- Removal of a key from the entries map (Go `delete(m.entries, key)`). -/
def eraseKey : Mem → String → Mem
  | [], _ => []
  | (k, e) :: rest, key =>
      if k = key then eraseKey rest key else (k, e) :: eraseKey rest key

/-- Map assignment `m.entries[key] = e`: replaces the binding if the key is
present, otherwise appends it. -/
def insertKey : Mem → String → CacheEntry → Mem
  | [], key, e => [(key, e)]
  | (k, e0) :: rest, key, e =>
      if k = key then (key, e) :: rest else (k, e0) :: insertKey rest key e

/-- Embedding of `Memory.Get` at wall-clock instant `now`: a present,
unexpired entry is returned; a present but expired entry is purged as a side
effect and reported as a miss. Returns the looked-up value, if any, together
with the possibly-purged map. -/
def memGet (m : Mem) (key : String) (now : Int) : Option Nat × Mem :=
  match lookupKey m key with
  | none => (none, m)
  | some e => if e.isExpired now then (none, eraseKey m key) else (some e.value, m)

/-- Embedding of `Memory.Set`: the stored entry is built by
`NewEntry(value, ttl, entry.BumpVersion())` where `entry` is the fresh
zero-value `CacheEntry` declared locally by the implementation, so the version
written is `0 + 1 = 1` on every call. -/
def memSet (m : Mem) (key : String) (v : Nat) (ttl : Int) (now : Int) : Mem :=
  let entry : CacheEntry := { value := 0, expiry := 0, version := 0 }
  insertKey m key (newEntry v ttl entry.bumpVersion.1 now)

/-- Result of a Go `(any, error)` pair: `Except.ok v` stands for `(v, nil)`
and `Except.error e` for `(nil, e)`. Error values are opaque `Nat` tags and
the `any` payload is fixed to `Nat`. -/
abbrev Res := Except Nat Nat

/-- Decidable equality of embedded Go fallible results. -/
instance {ε α : Type} [DecidableEq ε] [DecidableEq α] : DecidableEq (Except ε α) := fun a b =>
  match a, b with
  | Except.error e1, Except.error e2 =>
      if h : e1 = e2 then Decidable.isTrue (congrArg Except.error h)
      else Decidable.isFalse (fun hc => h (Except.error.inj hc))
  | Except.error _, Except.ok _ => Decidable.isFalse (fun hc => Except.noConfusion hc)
  | Except.ok _, Except.error _ => Decidable.isFalse (fun hc => Except.noConfusion hc)
  | Except.ok v1, Except.ok v2 =>
      if h : v1 = v2 then Decidable.isTrue (congrArg Except.ok h)
      else Decidable.isFalse (fun hc => h (Except.ok.inj hc))

/-- Embedding of the closure that `Memoizer.Get` hands to `SingleFlight.Do`:
it re-checks the backend after acquiring ownership and only on a second miss
runs the compute function `f`, storing its result in the backend on success
and writing nothing on failure. The deterministic compute function is
embedded by its result `f : Res`; the returned flag records whether `f` was
invoked. -/
def wrappedFn (ttl : Int) (m : Mem) (key : String) (now : Int) (f : Res) :
    Res × Mem × Bool :=
  match memGet m key now with
  | (some v, m1) => (Except.ok v, m1, false)
  | (none, m1) =>
      match f with
      | Except.error e => (Except.error e, m1, true)
      | Except.ok v => (Except.ok v, memSet m1 key v ttl now, true)

/-- Sequential embedding of `Memoizer.Get` for a single caller, for which
`SingleFlight.Do` reduces to running the wrapped computation as owner:
backend lookup, then on a miss the double-checked wrapped computation.
Metrics recording does not influence control flow and is modelled separately;
the interleaving model of `Do` for concurrent callers is developed below. -/
def memoGet (ttl : Int) (m : Mem) (key : String) (now : Int) (f : Res) :
    Res × Mem × Bool :=
  match memGet m key now with
  | (some v, m1) => (Except.ok v, m1, false)
  | (none, m1) => wrappedFn ttl m1 key now f

/-- Embedding of `memo.Metrics`: `uint64` counters are `Nat` values kept below
`U64`, the `int64` latency fields are `Int` values. -/
structure Metrics where
  enabled : Bool
  hits : Nat
  misses : Nat
  evictions : Nat
  requests : Nat
  totalLatency : Nat
  countLatency : Nat
  minLatency : Int
  maxLatency : Int
  lastLatency : Int
deriving DecidableEq

/-- Embedding of `NewMetrics`: all counters start at zero and, when enabled,
the minimum-latency slot is preloaded with the maximal `int64` value. -/
def newMetrics (enabled : Bool) : Metrics :=
  { enabled := enabled
    hits := 0
    misses := 0
    evictions := 0
    requests := 0
    totalLatency := 0
    countLatency := 0
    minLatency := if enabled then 2 ^ 63 - 1 else 0
    maxLatency := 0
    lastLatency := 0 }

/-- Embedding of `Metrics.RecordHit`. -/
def recordHit (m : Metrics) : Metrics :=
  if !m.enabled then m
  else { m with hits := (m.hits + 1) % U64, requests := (m.requests + 1) % U64 }

/-- Embedding of `Metrics.RecordMiss`. -/
def recordMiss (m : Metrics) : Metrics :=
  if !m.enabled then m
  else { m with misses := (m.misses + 1) % U64, requests := (m.requests + 1) % U64 }

/-- Embedding of `Metrics.RecordEviction`. -/
def recordEviction (m : Metrics) : Metrics :=
  if !m.enabled then m
  else { m with evictions := (m.evictions + 1) % U64 }

/-- Embedding of `Metrics.RecordLatency`: converts the duration to whole
microseconds (Go `Duration.Microseconds`, division truncating toward zero),
stores it as the last sample, adds its `uint64` conversion to the running
total, bumps the sample count and folds it into the running minimum and
maximum. The compare-and-swap retry loops of the source are plain conditional
updates in this sequential embedding. -/
def recordLatency (m : Metrics) (d : Int) : Metrics :=
  if !m.enabled then m
  else
    let microseconds := Int.tdiv d 1000
    { m with
      lastLatency := microseconds
      totalLatency := (m.totalLatency + (microseconds % (U64 : Int)).toNat) % U64
      countLatency := (m.countLatency + 1) % U64
      minLatency := if microseconds ≥ m.minLatency then m.minLatency else microseconds
      maxLatency := if microseconds ≤ m.maxLatency then m.maxLatency else microseconds }

/-- Embedding of `Metrics.HitRatio` as an exact rational: zero when disabled
or when no request was recorded, otherwise hits over requests. -/
def hitRatio (m : Metrics) : ℚ :=
  if !m.enabled then 0
  else if m.requests = 0 then 0
  else (m.hits : ℚ) / (m.requests : ℚ)

/-- Embedding of `Metrics.AvgLatency` as an exact rational: zero when no
sample was recorded, otherwise total over count. -/
def avgLatency (m : Metrics) : ℚ :=
  if m.countLatency = 0 then 0 else (m.totalLatency : ℚ) / (m.countLatency : ℚ)

/-- Wrapping of a mathematical integer into the Go `int64` two-complement
range. -/
def wrap64 (z : Int) : Int := (z + 2 ^ 63) % 2 ^ 64 - 2 ^ 63

/-- Embedding of `Metrics.MinLatency`: a negative stored microsecond count
reports as zero; otherwise the stored count is multiplied by
`time.Microsecond = 1000` in `int64` arithmetic, which can overflow. The
result is in nanoseconds. -/
def minLatencyDur (m : Metrics) : Int :=
  if m.minLatency < 0 then 0 else wrap64 (m.minLatency * 1000)

/-- Recording operations of the metrics collector, used to quantify over
arbitrary call sequences. -/
inductive MetricOp where
  | hit
  | miss
  | eviction
  | latency (d : Int)
deriving DecidableEq

/-- Application of one recording operation. -/
def applyOp (m : Metrics) : MetricOp → Metrics
  | MetricOp.hit => recordHit m
  | MetricOp.miss => recordMiss m
  | MetricOp.eviction => recordEviction m
  | MetricOp.latency d => recordLatency m d

/-- Application of a sequence of recording operations, oldest first. -/
def applyOps (m : Metrics) (ops : List MetricOp) : Metrics := ops.foldl applyOp m

/-- Embedding of `memo.Options`. The backend field is an optional in-memory
backend state, `none` embedding a nil Go interface value; the `KeyFunc` field
plays no role in construction or validation and is omitted. -/
structure Options where
  ttl : Int
  cacheOnCancel : Bool
  cleanupInterval : Int
  backend : Option Mem
  metricsEnabled : Bool
deriving DecidableEq

/-- Embedding of `DefaultOptions`: one-hour ttl and cleanup interval in
nanoseconds, a fresh in-memory backend and disabled metrics. -/
def defaultOptions : Options :=
  { ttl := 3600 * 1000000000
    cacheOnCancel := false
    cleanupInterval := 3600 * 1000000000
    backend := some []
    metricsEnabled := false }

/-- Embedding of the functional `memo.Option` type. -/
abbrev OptFn := Options → Options

/-- Embedding of `WithTTL`. -/
def withTTL (ttl : Int) : OptFn := fun o => { o with ttl := ttl }

/-- Embedding of `WithBackend`; `withBackend none` passes a nil backend. -/
def withBackend (b : Option Mem) : OptFn := fun o => { o with backend := b }

/-- Embedding of `WithMetrics`. -/
def withMetrics (enabled : Bool) : OptFn := fun o => { o with metricsEnabled := enabled }

/-- Embedding of `WithCleanupInterval`. -/
def withCleanupInterval (d : Int) : OptFn := fun o => { o with cleanupInterval := d }

/-- Embedding of `WithCacheOnCancel`. -/
def withCacheOnCancel (enabled : Bool) : OptFn := fun o => { o with cacheOnCancel := enabled }

/-- Embedding of `Options.Validate`: a nil backend, then a non-positive ttl,
are rejected with the corresponding error message. -/
def validateOptions (o : Options) : Option String :=
  match o.backend with
  | none => some "backend cannot be nil"
  | some _ => if o.ttl ≤ 0 then some "TTL must be positive" else none

/-- Embedding of a constructed `Memoizer`: the backend it captured, the full
options record and its metrics collector. -/
structure Memoizer where
  backend : Mem
  opts : Options
  metrics : Metrics
deriving DecidableEq

/-- Embedding of `memo.New`: folds the option functions over the defaults and
panics (the `error` branch) when validation rejects the configuration, with
the same check order as `Options.Validate`; otherwise the memoizer is built
from exactly the validated configuration. -/
def newMemoizer (opts : List OptFn) : Except String Memoizer :=
  let cfg := opts.foldl (fun c o => o c) defaultOptions
  match cfg.backend with
  | none => Except.error "backend cannot be nil"
  | some b =>
      if cfg.ttl ≤ 0 then Except.error "TTL must be positive"
      else Except.ok { backend := b, opts := cfg, metrics := newMetrics cfg.metricsEnabled }

/-- Backends produced by registered factories, as opaque handles. -/
abbrev BackendHandle := Nat

/-- Embedding of `backends.BackendFactory`. -/
abbrev BackendFactory := Unit → BackendHandle

/-- Embedding of the process-wide factory registry map. -/
abbrev Registry := List (String × BackendFactory)

/-- Presence test of a name in the registry. -/
def registryHas : Registry → String → Bool
  | [], _ => false
  | (k, _) :: rest, name => if k = name then true else registryHas rest name

/-- Lookup of a factory by name in the registry. -/
def registryFind : Registry → String → Option BackendFactory
  | [], _ => none
  | (k, f) :: rest, name => if k = name then some f else registryFind rest name

/-- Embedding of `RegisterBackend`: panics (the `error` branch) on a nil
factory or an already-registered name, otherwise extends the registry. A Go
nil factory argument is embedded as `none`. -/
def registerBackend (reg : Registry) (name : String) (factory : Option BackendFactory) :
    Except String Registry :=
  match factory with
  | none => Except.error "backend factory cannot be nil"
  | some f =>
      if registryHas reg name then
        Except.error ("backend factory already registered: " ++ name)
      else Except.ok (reg ++ [(name, f)])

/-- Embedding of `NewBackend`: looks the name up and either returns the typed
unknown-backend error value or applies the factory; the embedding has no
panic branch, matching the source, which only returns. -/
def newBackend (reg : Registry) (backendType : String) : Except String BackendHandle :=
  match registryFind reg backendType with
  | none => Except.error ("unknown backend type: " ++ backendType)
  | some f => Except.ok (f ())

/-- Structurally comparable argument values for the hashing utility. -/
inductive Arg where
  | natVal (n : Nat)
  | strVal (s : String)
  | pairVal (a b : Arg)
deriving DecidableEq

/-- Embedding of `fallbackHash`: the digest of the `%#v` string rendering of
the arguments. The digest function and the rendering are parameters of the
model: they are Go standard-library collaborators external to the repository. -/
def fallbackHash (sha : List Nat → String) (sprintfRepr : List Arg → List Nat)
    (args : List Arg) : String :=
  sha (sprintfRepr args)

/-- Embedding of `HashArgs`: gob-encode the argument list and digest the
encoding; when encoding fails (`none`), fall back to `fallbackHash`. The
encoder, the digest and the rendering are parameters of the model: they are
deterministic Go standard-library collaborators external to the repository. -/
def hashArgs (enc : List Arg → Option (List Nat)) (sha : List Nat → String)
    (sprintfRepr : List Arg → List Nat) (args : List Arg) : String :=
  match enc args with
  | none => fallbackHash sha sprintfRepr args
  | some bytes => sha bytes

/-! Interleaving model of `SingleFlight.Do` as used by `Memoizer.Get`: `n`
caller threads run `Get` concurrently for one shared key against an initially
empty backend. Each constructor of `PC` is one atomic action of the source:
mutex-protected sections of `Do` and the individual backend operations. The
deterministic compute function is embedded by the sequence `fr` of its
results, `fr j` being the result of its `j`-th execution, so that distinct
executions are observable. Entries are written with the configured positive
ttl and read back within the same session, during which the wall clock does
not advance, so the backend is embedded by the value stored for the key;
metrics recording does not influence control flow and waiter cancellation is
absent from the modelled scenario. -/

/-- Program counter of one caller thread. `start`: about to do the first
backend lookup of `Get`; `enterDo`: missed, about to lock the group mutex and
inspect the in-flight map; owner states carry the call index `cid`:
`ownerRecheck` re-checks the backend, `ownerCompute` runs `fn`, `ownerStore`
writes the backend, `ownerPublish` fills the call slot and signals the wait
group, `ownerDelete` removes the call from the map; `waiting cid` waits on
call `cid`; `done r` has returned `r`. -/
inductive PC where
  | start
  | enterDo
  | ownerRecheck (cid : Nat)
  | ownerCompute (cid : Nat)
  | ownerStore (cid : Nat) (v : Nat)
  | ownerPublish (cid : Nat) (r : Res)
  | ownerDelete (cid : Nat) (r : Res)
  | waiting (cid : Nat)
  | done (r : Res)
deriving DecidableEq

/-- Global state of the interleaving model: the backend value for the key,
the in-flight call of the group map (if any), the result slots of all calls
ever installed, the number of compute executions so far and the per-thread
program counters. -/
structure SFState where
  cache : Option Nat
  flight : Option Nat
  slots : List (Option Res)
  execCount : Nat
  threads : List PC
deriving DecidableEq

/-- Published result of call `cid`, if any. -/
def slotGet (s : SFState) (cid : Nat) : Option Res := (s.slots[cid]?).getD none

/-- One atomic step of thread `t`; threads that are finished, out of range or
blocked on an unpublished slot leave the state unchanged. -/
def sfStep (fr : Nat → Res) (s : SFState) (t : Nat) : SFState :=
  match s.threads[t]? with
  | none => s
  | some pc =>
    match pc with
    | PC.start =>
        match s.cache with
        | some v => { s with threads := s.threads.set t (PC.done (Except.ok v)) }
        | none => { s with threads := s.threads.set t PC.enterDo }
    | PC.enterDo =>
        match s.flight with
        | some cid => { s with threads := s.threads.set t (PC.waiting cid) }
        | none =>
            { s with
              flight := some s.slots.length
              slots := s.slots ++ [none]
              threads := s.threads.set t (PC.ownerRecheck s.slots.length) }
    | PC.ownerRecheck cid =>
        match s.cache with
        | some v => { s with threads := s.threads.set t (PC.ownerPublish cid (Except.ok v)) }
        | none => { s with threads := s.threads.set t (PC.ownerCompute cid) }
    | PC.ownerCompute cid =>
        match fr s.execCount with
        | Except.ok v =>
            { s with
              execCount := s.execCount + 1
              threads := s.threads.set t (PC.ownerStore cid v) }
        | Except.error e =>
            { s with
              execCount := s.execCount + 1
              threads := s.threads.set t (PC.ownerPublish cid (Except.error e)) }
    | PC.ownerStore cid v =>
        { s with
          cache := some v
          threads := s.threads.set t (PC.ownerPublish cid (Except.ok v)) }
    | PC.ownerPublish cid r =>
        { s with
          slots := s.slots.set cid (some r)
          threads := s.threads.set t (PC.ownerDelete cid r) }
    | PC.ownerDelete _ r =>
        { s with
          flight := none
          threads := s.threads.set t (PC.done r) }
    | PC.waiting cid =>
        match slotGet s cid with
        | some r => { s with threads := s.threads.set t (PC.done r) }
        | none => s
    | PC.done _ => s

/-- Initial state: empty backend, no call in flight, `n` threads about to
enter `Get`. -/
def sfInit (n : Nat) : SFState :=
  { cache := none
    flight := none
    slots := []
    execCount := 0
    threads := List.replicate n PC.start }

/-- Run of a schedule, oldest step first. -/
def sfRun (fr : Nat → Res) (s : SFState) (sched : List Nat) : SFState :=
  sched.foldl (sfStep fr) s

/-- Test for a finished thread. -/
def isDone : PC → Bool
  | PC.done _ => true
  | _ => false

/-- Test for a thread owning the in-flight call. -/
def isOwnerPC : PC → Bool
  | PC.ownerRecheck _ => true
  | PC.ownerCompute _ => true
  | PC.ownerStore _ _ => true
  | PC.ownerPublish _ _ => true
  | PC.ownerDelete _ _ => true
  | _ => false

/-- Test for a completely finished run. -/
def allDone (s : SFState) : Bool := s.threads.all isDone

/-- Thread-local invariant, parameterized by the surrounding state. -/
def PCinv (fr : Nat → Res) (s : SFState) : PC → Prop
  | PC.start => True
  | PC.enterDo => True
  | PC.ownerRecheck cid => cid = 0 ∧ s.execCount = 0 ∧ slotGet s 0 = none
  | PC.ownerCompute cid => cid = 0 ∧ s.execCount = 0 ∧ slotGet s 0 = none
  | PC.ownerStore cid v =>
      cid = 0 ∧ s.execCount = 1 ∧ fr 0 = Except.ok v ∧ slotGet s 0 = none
  | PC.ownerPublish cid r =>
      cid = 0 ∧ s.execCount = 1 ∧ r = fr 0 ∧ slotGet s 0 = none
  | PC.ownerDelete cid r =>
      cid = 0 ∧ s.execCount = 1 ∧ r = fr 0 ∧ slotGet s 0 = some r
  | PC.waiting cid => cid = 0 ∧ s.slots.length = 1
  | PC.done r => s.execCount = 1 ∧ r = fr 0

/-- Invariant of the interleaving model along schedules that install at most
one call, i.e. whose threads all share one single-flight session. -/
structure SFInv (fr : Nat → Res) (s : SFState) : Prop where
  noSession : s.slots.length = 0 → s.execCount = 0 ∧ s.cache = none ∧ s.flight = none
  flightZero : ∀ cid, s.flight = some cid → cid = 0 ∧ s.slots.length = 1
  cacheOK : ∀ v, s.cache = some v → s.execCount = 1 ∧ fr 0 = Except.ok v
  slotOK : ∀ r, slotGet s 0 = some r → s.execCount = 1 ∧ r = fr 0
  pcOK : ∀ (i : Nat) (pc : PC), s.threads[i]? = some pc → PCinv fr s pc
  ownerUnique : ∀ (i j : Nat) (pci pcj : PC), s.threads[i]? = some pci →
      s.threads[j]? = some pcj → isOwnerPC pci = true → isOwnerPC pcj = true → i = j
  ownerFlight : ∀ (i : Nat) (pc : PC), s.threads[i]? = some pc →
      isOwnerPC pc = true → s.flight = some 0
  flightOwner : ∀ cid, s.flight = some cid →
      ∃ (i : Nat) (pc : PC), s.threads[i]? = some pc ∧ isOwnerPC pc = true
  donePublished : s.slots.length = 1 → s.flight = none → ∃ r, slotGet s 0 = some r

/-! Helper lemmas about the entries map. -/

/-- Erasing a key removes its binding. -/
theorem lookupKey_eraseKey (m : Mem) (key : String) :
    lookupKey (eraseKey m key) key = none := by
  induction m with
  | nil => rfl
  | cons kv rest ih =>
      obtain ⟨k, e⟩ := kv
      by_cases hk : k = key
      · simpa [eraseKey, hk] using ih
      · simpa [eraseKey, lookupKey, hk] using ih

/-- Inserting a key makes it looked up. -/
theorem lookupKey_insertKey_self (m : Mem) (key : String) (e : CacheEntry) :
    lookupKey (insertKey m key e) key = some e := by
  induction m with
  | nil => simp [insertKey, lookupKey]
  | cons kv rest ih =>
      obtain ⟨k, e0⟩ := kv
      by_cases hk : k = key
      · simp [insertKey, hk, lookupKey]
      · simpa [insertKey, lookupKey, hk] using ih

/-- A miss of `Memory.Get` leaves no binding for the key in the returned
state: the key was either absent or purged as expired. -/
theorem memGet_miss_state (m : Mem) (key : String) (now : Int) (m1 : Mem)
    (h : memGet m key now = (none, m1)) : lookupKey m1 key = none := by
  unfold memGet at h
  cases hl : lookupKey m key with
  | none =>
      rw [hl] at h
      cases h
      exact hl
  | some e =>
      rw [hl] at h
      by_cases hex : e.isExpired now
      · simp only [hex, if_true] at h
        cases h
        exact lookupKey_eraseKey m key
      · simp [hex] at h

/-- A lookup of an absent key is a miss that does not change the state. -/
theorem memGet_absent (m : Mem) (key : String) (now : Int)
    (h : lookupKey m key = none) : memGet m key now = (none, m) := by
  unfold memGet
  rw [h]

/-- A lookup of a present, unexpired entry is a hit that does not change the
state. -/
theorem memGet_hit (m : Mem) (key : String) (now : Int) (e : CacheEntry)
    (hl : lookupKey m key = some e) (hex : e.isExpired now = false) :
    memGet m key now = (some e.value, m) := by
  unfold memGet
  rw [hl]
  simp [hex]

/-- C2: a successful `Get` leaves an entry for the key holding the returned
value, and any later `Get` at an instant at which that entry is unexpired
returns the cached value, does not invoke the new compute function and leaves
the backend unchanged; moreover the coordinator-wrapped computation itself,
run while the key holds an unexpired entry, returns the cached value without
invoking compute. -/
theorem get_hit_suppresses_compute (ttl : Int) (m m2 : Mem) (key : String)
    (t0 : Int) (f : Res) (v : Nat) (b : Bool)
    (h : memoGet ttl m key t0 f = (Except.ok v, m2, b)) :
    (∃ e : CacheEntry, lookupKey m2 key = some e ∧ e.value = v ∧
      ∀ (t1 : Int) (f2 : Res), e.isExpired t1 = false →
        memoGet ttl m2 key t1 f2 = (Except.ok v, m2, false)) ∧
    (∀ (m3 : Mem) (t1 : Int) (f2 : Res) (e : CacheEntry),
      lookupKey m3 key = some e → e.isExpired t1 = false →
      wrappedFn ttl m3 key t1 f2 = (Except.ok e.value, m3, false)) := by
  constructor
  · unfold memoGet at h
    cases hm : memGet m key t0 with
    | mk val m1 =>
        rw [hm] at h
        cases val with
        | some v0 =>
            simp only [Prod.mk.injEq, Except.ok.injEq] at h
            obtain ⟨hv, hm2, hb⟩ := h
            -- extract the entry from the hit
            unfold memGet at hm
            cases hl : lookupKey m key with
            | none => rw [hl] at hm; cases hm
            | some e =>
                rw [hl] at hm
                by_cases hex : e.isExpired t0
                · simp [hex] at hm
                · simp only [hex, Bool.false_eq_true, if_false, Prod.mk.injEq,
                    Option.some.injEq] at hm
                  obtain ⟨he, hst⟩ := hm
                  refine ⟨e, ?_, ?_, ?_⟩
                  · rw [← hm2, ← hst]; exact hl
                  · exact he.trans hv
                  · intro t1 f2 hex1
                    unfold memoGet
                    have hl1 : lookupKey m2 key = some e := by
                      rw [← hm2, ← hst]; exact hl
                    rw [memGet_hit m2 key t1 e hl1 hex1, he, hv]
        | none =>
            simp only at h
            -- miss: the wrapped computation ran as owner
            have hmiss : lookupKey m1 key = none := memGet_miss_state m key t0 m1 hm
            unfold wrappedFn at h
            rw [memGet_absent m1 key t0 hmiss] at h
            cases f with
            | error e0 => simp at h
            | ok v0 =>
                simp only [Prod.mk.injEq, Except.ok.injEq] at h
                obtain ⟨hv, hm2, hb⟩ := h
                have hl2 : lookupKey m2 key = some (newEntry v0 ttl 1 t0) := by
                  rw [← hm2]; exact lookupKey_insertKey_self m1 key _
                refine ⟨newEntry v0 ttl 1 t0, hl2, hv, ?_⟩
                intro t1 f2 hex1
                unfold memoGet
                rw [memGet_hit m2 key t1 _ hl2 hex1]
                simp [newEntry, hv]
  · intro m3 t1 f2 e hl hex
    unfold wrappedFn
    rw [memGet_hit m3 key t1 e hl hex]

/-- C2 witness: a concrete successful Get followed by a wrapped-computation
run on the populated backend. -/
theorem get_hit_suppresses_compute_witness :
    wrappedFn 1000 [("k", (⟨42, 1000, 1⟩ : CacheEntry))] "k" 500 (Except.error 9)
      = (Except.ok 42, [("k", (⟨42, 1000, 1⟩ : CacheEntry))], false) :=
  (get_hit_suppresses_compute 1000 [] [("k", ⟨42, 1000, 1⟩)] "k" 0 (Except.ok 42) 42 true
    (by decide)).2 [("k", ⟨42, 1000, 1⟩)] 500 (Except.error 9) ⟨42, 1000, 1⟩
    (by decide) (by decide)

/-- C3 counterexample: with an already-expired entry for the key, a Get whose
compute function fails does change the backend state for that key — the
lookup purges the stale entry — refuting the unchanged-state part of the
claim. -/
theorem get_error_state_counterexample :
    memoGet 1000 [("k", (⟨5, 10, 1⟩ : CacheEntry))] "k" 20 (Except.error 3)
      = (Except.error 3, [], true) ∧
    lookupKey [("k", (⟨5, 10, 1⟩ : CacheEntry))] "k" ≠ lookupKey ([] : Mem) "k" := by
  decide

/-- C3 (amended): when the first lookup misses and the compute function
fails, Get propagates exactly that error, the compute function is invoked,
nothing is written — the final backend state is exactly the post-lookup
state, which differs from the initial one only by the purge of an
already-expired entry for the key — and the key remains absent. -/
theorem get_error_not_cached (ttl : Int) (m : Mem) (key : String) (now : Int) (e : Nat)
    (hmiss : (memGet m key now).1 = none) :
    memoGet ttl m key now (Except.error e)
      = (Except.error e, (memGet m key now).2, true) ∧
    lookupKey (memGet m key now).2 key = none := by
  have hm : memGet m key now = (none, (memGet m key now).2) := by
    rw [← hmiss]
  have hmiss2 : lookupKey (memGet m key now).2 key = none :=
    memGet_miss_state m key now _ hm
  refine ⟨?_, hmiss2⟩
  unfold memoGet
  rw [hm]
  show wrappedFn ttl (memGet m key now).2 key now (Except.error e)
      = (Except.error e, (memGet m key now).2, true)
  unfold wrappedFn
  rw [memGet_absent _ key now hmiss2]

/-- C3 witness: an error-returning compute on an empty backend. -/
theorem get_error_not_cached_witness :
    memoGet 1000 [] "k" 0 (Except.error 7) = (Except.error 7, [], true) :=
  ((get_error_not_cached 1000 [] "k" 0 7 (by decide)).1).trans (by decide)

/-- C4 (code bug): two successive in-memory Set calls to the same key both
store version 1 — the implementation calls BumpVersion on a locally declared
zero-value entry instead of on the entry being overwritten — so the second
write's version is not strictly greater than the overwritten one's. -/
theorem memSet_version_not_bumped :
    (lookupKey (memSet [] "k" 10 1000 0) "k").map CacheEntry.version = some 1 ∧
    (lookupKey (memSet (memSet [] "k" 10 1000 0) "k" 11 1000 5) "k").map
      CacheEntry.version = some 1 ∧
    ¬ (1 : Nat) < 1 := by
  decide

/-- C5: construction validates eagerly — `New` panics exactly when validation
of the folded configuration fails, i.e. on a nil backend or a non-positive
ttl, and on success the memoizer is built from exactly the validated
configuration, with nothing substituted. -/
theorem new_validates_eagerly (opts : List OptFn) :
    (∀ err, newMemoizer opts = Except.error err ↔
      validateOptions (opts.foldl (fun c o => o c) defaultOptions) = some err) ∧
    (∀ mz, newMemoizer opts = Except.ok mz →
      (opts.foldl (fun c o => o c) defaultOptions).backend = some mz.backend ∧
      mz.opts = opts.foldl (fun c o => o c) defaultOptions ∧
      0 < mz.opts.ttl ∧
      mz.metrics = newMetrics mz.opts.metricsEnabled) := by
  unfold newMemoizer validateOptions
  dsimp only
  cases hb : (opts.foldl (fun c o => o c) defaultOptions).backend with
  | none => simp
  | some b =>
      by_cases httl : (opts.foldl (fun c o => o c) defaultOptions).ttl ≤ 0
      · simp [httl]
      · constructor
        · intro err
          simp [httl]
        · intro mz hmz
          dsimp only at hmz
          rw [if_neg httl] at hmz
          rw [← Except.ok.inj hmz]
          exact ⟨rfl, rfl, not_le.mp httl, rfl⟩

/-- C5 witness: an explicit nil backend and a non-positive ttl are rejected;
the default configuration is accepted unmodified. -/
theorem new_validates_eagerly_witness :
    newMemoizer [withBackend none] = Except.error "backend cannot be nil" ∧
    newMemoizer [withTTL (-1)] = Except.error "TTL must be positive" ∧
    defaultOptions.backend
      = some (Memoizer.backend ⟨[], defaultOptions, newMetrics false⟩) := by
  refine ⟨?_, ?_, ?_⟩
  · exact ((new_validates_eagerly [withBackend none]).1 "backend cannot be nil").mpr
      (by decide)
  · exact ((new_validates_eagerly [withTTL (-1)]).1 "TTL must be positive").mpr
      (by decide)
  · exact ((new_validates_eagerly []).2 ⟨[], defaultOptions, newMetrics false⟩
      (by decide)).1

/-- C6: with metrics enabled, one miss followed by one hit yields two
requests, one hit, one miss and a hit ratio of one half; with metrics
disabled, every recording operation is a no-op — after any operation sequence
the collector still equals the freshly created all-zero one — and the derived
statistics read zero through their explicit zero-denominator guards. -/
theorem metrics_accounting :
    ((recordHit (recordMiss (newMetrics true))).requests = 2 ∧
      (recordHit (recordMiss (newMetrics true))).hits = 1 ∧
      (recordHit (recordMiss (newMetrics true))).misses = 1 ∧
      hitRatio (recordHit (recordMiss (newMetrics true))) = 1 / 2) ∧
    (∀ ops : List MetricOp, applyOps (newMetrics false) ops = newMetrics false ∧
      hitRatio (applyOps (newMetrics false) ops) = 0 ∧
      avgLatency (applyOps (newMetrics false) ops) = 0) := by
  have hnoop : ∀ ops : List MetricOp, applyOps (newMetrics false) ops = newMetrics false := by
    intro ops
    induction ops with
    | nil => rfl
    | cons op rest ih =>
        have hop : applyOp (newMetrics false) op = newMetrics false := by
          cases op <;> rfl
        show applyOps (applyOp (newMetrics false) op) rest = newMetrics false
        rw [hop, ih]
  refine ⟨?_, fun ops => ⟨hnoop ops, ?_, ?_⟩⟩
  · have hm : recordHit (recordMiss (newMetrics true))
        = ⟨true, 1, 1, 0, 2, 0, 0, 2 ^ 63 - 1, 0, 0⟩ := by decide
    rw [hm]
    refine ⟨rfl, rfl, rfl, ?_⟩
    norm_num [hitRatio]
  · rw [hnoop ops]; rfl
  · rw [hnoop ops]; rfl

/-- C7: an entry created with non-positive ttl carries the no-expiration
sentinel and is never expired; SetExpiry with non-positive ttl on an expired
entry clears the expiration, making IsExpired false; and for a non-sentinel
expiry IsExpired is exactly the comparison of the clock against the expiry. -/
theorem entry_expiry_spec (v ver : Nat) (e : CacheEntry) (ttl t0 t1 now : Int) :
    (ttl ≤ 0 → ∀ t, (newEntry v ttl ver now).isExpired t = false) ∧
    (ttl ≤ 0 → e.isExpired t0 = true → (e.setExpiry ttl now).isExpired t1 = false) ∧
    (e.expiry ≠ 0 → (e.isExpired t1 = true ↔ e.expiry < t1)) := by
  refine ⟨?_, ?_, ?_⟩
  · intro httl t
    simp [newEntry, CacheEntry.isExpired, show ¬ttl > 0 by omega]
  · intro httl _
    simp [CacheEntry.setExpiry, CacheEntry.isExpired, show ¬ttl > 0 by omega]
  · intro hne
    simp [CacheEntry.isExpired, hne, gt_iff_lt]

/-- C7 witness: a never-expiring zero-ttl entry, an expired entry reset by a
zero-ttl SetExpiry, and a dated entry checked after its expiry. -/
theorem entry_expiry_spec_witness :
    (newEntry 3 0 2 100).isExpired 999999 = false ∧
    ((⟨7, 50, 1⟩ : CacheEntry).setExpiry 0 100).isExpired 60 = false ∧
    ((⟨7, 50, 1⟩ : CacheEntry).isExpired 60 = true ↔ (50 : Int) < 60) := by
  refine ⟨?_, ?_, ?_⟩
  · exact (entry_expiry_spec 3 2 ⟨7, 50, 1⟩ 0 60 999999 100).1 (by decide) 999999
  · exact (entry_expiry_spec 7 1 ⟨7, 50, 1⟩ 0 60 60 100).2.1 (by decide) (by decide)
  · exact (entry_expiry_spec 7 1 ⟨7, 50, 1⟩ 0 60 60 100).2.2 (by decide)

/-- C8: registration panics exactly on a nil factory or an already-registered
name and otherwise extends the registry; lookup of an unregistered name
returns the typed unknown-backend error value — the embedding of `NewBackend`
has no panic branch — and a registered name yields its factory's backend
without error. -/
theorem registry_spec (reg : Registry) (name : String) :
    (registerBackend reg name none = Except.error "backend factory cannot be nil") ∧
    (∀ f : BackendFactory, registryHas reg name = true →
      registerBackend reg name (some f)
        = Except.error ("backend factory already registered: " ++ name)) ∧
    (∀ f : BackendFactory, registryHas reg name = false →
      registerBackend reg name (some f) = Except.ok (reg ++ [(name, f)])) ∧
    (registryFind reg name = none →
      newBackend reg name = Except.error ("unknown backend type: " ++ name)) ∧
    (∀ f : BackendFactory, registryFind reg name = some f →
      newBackend reg name = Except.ok (f ())) := by
  refine ⟨rfl, ?_, ?_, ?_, ?_⟩
  · intro f hf
    simp [registerBackend, hf]
  · intro f hf
    simp [registerBackend, hf]
  · intro hf
    simp [newBackend, hf]
  · intro f hf
    simp [newBackend, hf]

/-- C8 witness: concrete registrations and lookups against a one-entry
registry. -/
theorem registry_spec_witness :
    registerBackend [] "memory" none = Except.error "backend factory cannot be nil" ∧
    registerBackend [("memory", fun _ => 7)] "memory" (some fun _ => 9)
      = Except.error ("backend factory already registered: " ++ "memory") ∧
    registerBackend [] "memory" (some fun _ => 7)
      = Except.ok ([] ++ [("memory", fun _ => 7)]) ∧
    newBackend [("memory", fun _ => 7)] "redis"
      = Except.error ("unknown backend type: " ++ "redis") ∧
    newBackend [("memory", fun _ => 7)] "memory" = Except.ok 7 := by
  refine ⟨(registry_spec [] "memory").1, ?_, ?_, ?_, ?_⟩
  · exact (registry_spec [("memory", fun _ => 7)] "memory").2.1 (fun _ => 9) rfl
  · exact (registry_spec [] "memory").2.2.1 (fun _ => 7) rfl
  · exact (registry_spec [("memory", fun _ => 7)] "redis").2.2.2.1 rfl
  · exact (registry_spec [("memory", fun _ => 7)] "memory").2.2.2.2 (fun _ => 7) rfl

/-- C9: the hashing utility is a total function into digest strings — for
every input it returns the digest of the successful encoding, or on encoding
failure the fallback digest of the string rendering, never an error — and it
is deterministic: structurally equal argument lists yield identical digests. -/
theorem hashArgs_total_deterministic (enc : List Arg → Option (List Nat))
    (sha : List Nat → String) (sprintfRepr : List Arg → List Nat)
    (args args2 : List Arg) :
    (args = args2 →
      hashArgs enc sha sprintfRepr args = hashArgs enc sha sprintfRepr args2) ∧
    (enc args = none →
      hashArgs enc sha sprintfRepr args = fallbackHash sha sprintfRepr args) ∧
    (∀ bytes, enc args = some bytes → hashArgs enc sha sprintfRepr args = sha bytes) := by
  refine ⟨fun h => by rw [h], fun h => by simp [hashArgs, h],
    fun bytes h => by simp [hashArgs, h]⟩

/-- C9 witness: a failing encoder falls back, a succeeding one digests its
encoding, and equal inputs hash equally. -/
theorem hashArgs_total_deterministic_witness :
    hashArgs (fun _ => none) (fun _ => "digest") (fun _ => [1])
        [Arg.natVal 5]
      = fallbackHash (fun _ => "digest") (fun _ => [1]) [Arg.natVal 5] ∧
    hashArgs (fun l => some [l.length]) (fun _ => "digest") (fun _ => [1])
        [Arg.natVal 5]
      = (fun (_ : List Nat) => "digest") [1] ∧
    hashArgs (fun _ => none) (fun _ => "digest") (fun _ => [1]) [Arg.natVal 5]
      = hashArgs (fun _ => none) (fun _ => "digest") (fun _ => [1]) [Arg.natVal 5] := by
  refine ⟨?_, ?_, ?_⟩
  · exact (hashArgs_total_deterministic (fun _ => none) (fun _ => "digest")
      (fun _ => [1]) [Arg.natVal 5] [Arg.natVal 5]).2.1 rfl
  · exact (hashArgs_total_deterministic (fun l => some [l.length]) (fun _ => "digest")
      (fun _ => [1]) [Arg.natVal 5] [Arg.natVal 5]).2.2 [1] rfl
  · exact (hashArgs_total_deterministic (fun _ => none) (fun _ => "digest")
      (fun _ => [1]) [Arg.natVal 5] [Arg.natVal 5]).1 rfl

/-- C10 counterexample: on an enabled collector with no samples, MinLatency
does not return the max-int64 microsecond sentinel as an enormous positive
duration — the int64 multiplication by 1000 overflows and the result is the
negative duration of -1000 nanoseconds. -/
theorem minLatency_sentinel_counterexample :
    minLatencyDur (newMetrics true) = -1000 ∧
    minLatencyDur (newMetrics true) < 0 ∧
    (newMetrics true).minLatency = 2 ^ 63 - 1 := by
  decide

/-- C10 (amended): an enabled collector holds the max-int64 microsecond
sentinel internally before any RecordLatency, and MinLatency converts it,
with an int64 overflow in the multiplication by 1000, to the nonzero negative
duration -1000 ns — in particular not zero; a collector created disabled
reports MinLatency zero. -/
theorem minLatency_initial (b : Bool) :
    (newMetrics b).minLatency = (if b then 2 ^ 63 - 1 else 0) ∧
    minLatencyDur (newMetrics b) = (if b then -1000 else 0) ∧
    (b = true → minLatencyDur (newMetrics b) ≠ 0) := by
  cases b
  · exact ⟨by decide, by decide, fun hb => absurd hb (by decide)⟩
  · exact ⟨by decide, by decide, fun _ => by decide⟩

/-- C10 witness: the enabled collector's initial MinLatency is nonzero. -/
theorem minLatency_initial_witness :
    minLatencyDur (newMetrics true) ≠ 0 :=
  (minLatency_initial true).2.2 rfl

/-! Support lemmas for the interleaving model. -/

/-- Case split for a lookup in an updated thread list. -/
theorem threads_set_lookup (l : List PC) (t i : Nat) (a pc : PC)
    (h : (l.set t a)[i]? = some pc) :
    (i = t ∧ pc = a) ∨ (i ≠ t ∧ l[i]? = some pc) := by
  rw [List.getElem?_set] at h
  by_cases hit : t = i
  · subst hit
    simp only [if_pos rfl] at h
    by_cases hlt : t < l.length
    · rw [if_pos hlt] at h
      exact Or.inl ⟨rfl, (Option.some.inj h).symm⟩
    · rw [if_neg hlt] at h
      cases h
  · rw [if_neg hit] at h
    exact Or.inr ⟨fun he => hit he.symm, h⟩

/-- Updating a live thread makes its new program counter looked up. -/
theorem threads_set_self (l : List PC) (t : Nat) (a old : PC)
    (hold : l[t]? = some old) : (l.set t a)[t]? = some a :=
  List.getElem?_set_self (List.getElem?_eq_some.mp hold).1

/-- Updating one thread leaves the others unchanged. -/
theorem threads_set_other (l : List PC) (t i : Nat) (a : PC) (h : i ≠ t) :
    (l.set t a)[i]? = l[i]? := by
  rw [List.getElem?_set, if_neg fun he => h he.symm]

/-- A step never removes result slots. -/
theorem sfStep_slots_mono (fr : Nat → Res) (s : SFState) (t : Nat) :
    s.slots.length ≤ (sfStep fr s t).slots.length := by
  unfold sfStep
  cases s.threads[t]? with
  | none => exact le_refl _
  | some pc =>
      cases pc with
      | start => cases s.cache <;> simp
      | enterDo => cases s.flight <;> simp
      | ownerRecheck cid => cases s.cache <;> simp
      | ownerCompute cid => cases fr s.execCount <;> simp
      | ownerStore cid v => simp
      | ownerPublish cid r => simp
      | ownerDelete cid r => simp
      | waiting cid => cases h : slotGet s cid <;> simp [h]
      | done r => exact le_refl _

/-- A run never removes result slots. -/
theorem sfRun_slots_mono (fr : Nat → Res) (s : SFState) (sched : List Nat) :
    s.slots.length ≤ (sfRun fr s sched).slots.length := by
  induction sched generalizing s with
  | nil => exact le_refl _
  | cons t rest ih =>
      exact le_trans (sfStep_slots_mono fr s t) (ih (sfStep fr s t))

/-- Any thread other than an owner thread is at a non-owner program counter. -/
theorem other_not_owner (fr : Nat → Res) (s : SFState) (hs : SFInv fr s)
    (t i : Nat) (pct pci : PC) (ht : s.threads[t]? = some pct)
    (hownt : isOwnerPC pct = true) (hi : s.threads[i]? = some pci) (hne : i ≠ t) :
    isOwnerPC pci = false := by
  cases hb : isOwnerPC pci with
  | false => rfl
  | true => exact absurd (hs.ownerUnique i t pci pct hi ht hb hownt) hne

/-- Non-owner program counters are start, enterDo, waiting or done. -/
theorem nonowner_shape (pc : PC) (h : isOwnerPC pc = false) :
    pc = PC.start ∨ pc = PC.enterDo ∨ (∃ cid, pc = PC.waiting cid) ∨
    (∃ r, pc = PC.done r) := by
  cases pc with
  | start => exact Or.inl rfl
  | enterDo => exact Or.inr (Or.inl rfl)
  | waiting cid => exact Or.inr (Or.inr (Or.inl ⟨cid, rfl⟩))
  | done r => exact Or.inr (Or.inr (Or.inr ⟨r, rfl⟩))
  | ownerRecheck cid => exact Bool.noConfusion h
  | ownerCompute cid => exact Bool.noConfusion h
  | ownerStore cid v => exact Bool.noConfusion h
  | ownerPublish cid r => exact Bool.noConfusion h
  | ownerDelete cid r => exact Bool.noConfusion h

/-- Preservation of the invariant by a step that only rewrites the stepping
thread's program counter, leaving the shared state untouched and the
ownership status of that thread unchanged. -/
theorem sfInv_threads_update (fr : Nat → Res) (s : SFState) (t : Nat) (old npc : PC)
    (hs : SFInv fr s) (hold : s.threads[t]? = some old)
    (hnew : PCinv fr s npc)
    (hown : isOwnerPC npc = isOwnerPC old) :
    SFInv fr { s with threads := s.threads.set t npc } := by
  obtain ⟨c0, c1, c2, c3, c4, c5, c6, c7, c8⟩ := hs
  refine ⟨c0, c1, c2, c3, ?_, ?_, ?_, ?_, c8⟩
  · intro i pc hpc
    rcases threads_set_lookup s.threads t i npc pc hpc with ⟨_, hpe⟩ | ⟨_, hpi⟩
    · rw [hpe]
      exact hnew
    · exact c4 i pc hpi
  · intro i j pci pcj hi hj hoi hoj
    rcases threads_set_lookup s.threads t i npc pci hi with ⟨hit, hpe⟩ | ⟨hne, hpi⟩ <;>
      rcases threads_set_lookup s.threads t j npc pcj hj with ⟨hjt, hpe2⟩ | ⟨hne2, hpi2⟩
    · rw [hit, hjt]
    · rw [hpe, hown] at hoi
      exact hit.trans (c5 t j old pcj hold hpi2 hoi hoj)
    · rw [hpe2, hown] at hoj
      exact (c5 i t pci old hpi hold hoi hoj).trans hjt.symm
    · exact c5 i j pci pcj hpi hpi2 hoi hoj
  · intro i pc hpc hownpc
    rcases threads_set_lookup s.threads t i npc pc hpc with ⟨_, hpe⟩ | ⟨_, hpi⟩
    · rw [hpe, hown] at hownpc
      exact c6 t old hold hownpc
    · exact c6 i pc hpi hownpc
  · intro cid hcid
    obtain ⟨i, pc, hi, howni⟩ := c7 cid hcid
    by_cases hit : i = t
    · rw [hit, hold] at hi
      have hpcold : pc = old := (Option.some.inj hi).symm
      rw [hpcold] at howni
      exact ⟨t, npc, threads_set_self s.threads t npc old hold, hown.trans howni⟩
    · exact ⟨i, pc, by rw [threads_set_other s.threads t i npc hit]; exact hi, howni⟩

/-- Preservation of the invariant by the installing step of the single
session's owner. -/
theorem sfInv_install (fr : Nat → Res) (s : SFState) (t : Nat)
    (hs : SFInv fr s) (hold : s.threads[t]? = some PC.enterDo)
    (hf : s.flight = none) (hlen0 : s.slots.length = 0) :
    SFInv fr { s with
      flight := some s.slots.length
      slots := s.slots ++ [none]
      threads := s.threads.set t (PC.ownerRecheck s.slots.length) } := by
  obtain ⟨hex0, hcache, -⟩ := hs.noSession hlen0
  have hnil : s.slots = [] := List.length_eq_zero.mp hlen0
  have hshape : ∀ (i : Nat) (pc : PC), s.threads[i]? = some pc →
      pc = PC.start ∨ pc = PC.enterDo := by
    intro i pc hp
    have hpc := hs.pcOK i pc hp
    cases pc with
    | start => exact Or.inl rfl
    | enterDo => exact Or.inr rfl
    | waiting cid => exact absurd (hlen0.symm.trans hpc.2) (by decide)
    | done r => exact absurd (hex0.symm.trans hpc.1) (by decide)
    | ownerRecheck cid =>
        have h2 := hs.ownerFlight i _ hp rfl
        rw [hf] at h2
        exact Option.noConfusion h2
    | ownerCompute cid =>
        have h2 := hs.ownerFlight i _ hp rfl
        rw [hf] at h2
        exact Option.noConfusion h2
    | ownerStore cid v =>
        have h2 := hs.ownerFlight i _ hp rfl
        rw [hf] at h2
        exact Option.noConfusion h2
    | ownerPublish cid r =>
        have h2 := hs.ownerFlight i _ hp rfl
        rw [hf] at h2
        exact Option.noConfusion h2
    | ownerDelete cid r =>
        have h2 := hs.ownerFlight i _ hp rfl
        rw [hf] at h2
        exact Option.noConfusion h2
  have hslotnew : slotGet { s with
      flight := some s.slots.length
      slots := s.slots ++ [none]
      threads := s.threads.set t (PC.ownerRecheck s.slots.length) } 0 = none := by
    simp [slotGet, hnil]
  refine ⟨?_, ?_, ?_, ?_, ?_, ?_, ?_, ?_, ?_⟩
  · intro h
    have h2 : (s.slots ++ [none]).length = 0 := h
    rw [List.length_append, hlen0] at h2
    exact absurd h2 (by decide)
  · intro cid hc
    have hcid := Option.some.inj hc
    constructor
    · omega
    · show (s.slots ++ [none]).length = 1
      rw [List.length_append, hlen0]
      rfl
  · intro v hv
    have hv2 : s.cache = some v := hv
    rw [hcache] at hv2
    exact Option.noConfusion hv2
  · intro r hr
    rw [hslotnew] at hr
    exact Option.noConfusion hr
  · intro i pc hpc
    rcases threads_set_lookup s.threads t i _ pc hpc with ⟨_, hpe⟩ | ⟨hne, hpi⟩
    · rw [hpe]
      exact ⟨hlen0, hex0, hslotnew⟩
    · rcases hshape i pc hpi with h | h <;> rw [h] <;> trivial
  · intro i j pci pcj hi hj hoi hoj
    rcases threads_set_lookup s.threads t i _ pci hi with ⟨hit, hpe⟩ | ⟨hne, hpi⟩ <;>
      rcases threads_set_lookup s.threads t j _ pcj hj with ⟨hjt, hpe2⟩ | ⟨hne2, hpi2⟩
    · rw [hit, hjt]
    · rcases hshape j pcj hpi2 with h | h <;> rw [h] at hoj <;> exact Bool.noConfusion hoj
    · rcases hshape i pci hpi with h | h <;> rw [h] at hoi <;> exact Bool.noConfusion hoi
    · rcases hshape i pci hpi with h | h <;> rw [h] at hoi <;> exact Bool.noConfusion hoi
  · intro i pc hp hown
    rcases threads_set_lookup s.threads t i _ pc hp with ⟨_, hpe⟩ | ⟨hne, hpi⟩
    · show some s.slots.length = some 0
      rw [hlen0]
    · rcases hshape i pc hpi with h | h <;> rw [h] at hown <;> exact Bool.noConfusion hown
  · intro cid hcid
    exact ⟨t, PC.ownerRecheck s.slots.length,
      threads_set_self s.threads t _ _ hold, rfl⟩
  · intro _ hfl
    exact Option.noConfusion hfl

/-- Preservation of the invariant by the owner's compute step when the
computation succeeds. -/
theorem sfInv_compute_ok (fr : Nat → Res) (s : SFState) (t cid : Nat) (v : Nat)
    (hs : SFInv fr s) (hold : s.threads[t]? = some (PC.ownerCompute cid))
    (hfr : fr s.execCount = Except.ok v) :
    SFInv fr { s with
      execCount := s.execCount + 1
      threads := s.threads.set t (PC.ownerStore cid v) } := by
  obtain ⟨hcid0, hex0, hslot0⟩ := hs.pcOK t _ hold
  have hflight : s.flight = some 0 := hs.ownerFlight t _ hold rfl
  have hlen1 : s.slots.length = 1 := (hs.flightZero 0 hflight).2
  have hfr0 : fr 0 = Except.ok v := by rw [← hex0]; exact hfr
  refine ⟨?_, ?_, ?_, ?_, ?_, ?_, ?_, ?_, ?_⟩
  · intro h
    have h2 : s.slots.length = 0 := h
    omega
  · intro c hc
    exact hs.flightZero c hc
  · intro w hw
    have hw2 : s.cache = some w := hw
    have := hs.cacheOK w hw2
    exact absurd (hex0.symm.trans this.1) (by decide)
  · intro r hr
    have hr2 : slotGet s 0 = some r := hr
    rw [hslot0] at hr2
    exact Option.noConfusion hr2
  · intro i pc hpc
    rcases threads_set_lookup s.threads t i _ pc hpc with ⟨_, hpe⟩ | ⟨hne, hpi⟩
    · rw [hpe]
      refine ⟨hcid0, ?_, hfr0, hslot0⟩
      show s.execCount + 1 = 1
      omega
    · have hnotown := other_not_owner fr s hs t i _ pc hold rfl hpi hne
      have hp2 := hs.pcOK i pc hpi
      rcases nonowner_shape pc hnotown with h | h | ⟨c2, h⟩ | ⟨r2, h⟩
      · rw [h]; trivial
      · rw [h]; trivial
      · rw [h]
        rw [h] at hp2
        exact ⟨hp2.1, hp2.2⟩
      · rw [h] at hp2
        exact absurd (hex0.symm.trans hp2.1) (by decide)
  · intro i j pci pcj hi hj hoi hoj
    rcases threads_set_lookup s.threads t i _ pci hi with ⟨hit, hpe⟩ | ⟨hne, hpi⟩ <;>
      rcases threads_set_lookup s.threads t j _ pcj hj with ⟨hjt, hpe2⟩ | ⟨hne2, hpi2⟩
    · rw [hit, hjt]
    · have := other_not_owner fr s hs t j _ pcj hold rfl hpi2 hne2
      rw [this] at hoj
      exact Bool.noConfusion hoj
    · have := other_not_owner fr s hs t i _ pci hold rfl hpi hne
      rw [this] at hoi
      exact Bool.noConfusion hoi
    · exact hs.ownerUnique i j pci pcj hpi hpi2 hoi hoj
  · intro i pc hp hown
    rcases threads_set_lookup s.threads t i _ pc hp with ⟨_, hpe⟩ | ⟨hne, hpi⟩
    · exact hflight
    · have := other_not_owner fr s hs t i _ pc hold rfl hpi hne
      rw [this] at hown
      exact Bool.noConfusion hown
  · intro c hc
    exact ⟨t, PC.ownerStore cid v, threads_set_self s.threads t _ _ hold, rfl⟩
  · intro _ hfl
    have hfl2 : s.flight = none := hfl
    rw [hflight] at hfl2
    exact Option.noConfusion hfl2

/-- Preservation of the invariant by the owner's compute step when the
computation fails. -/
theorem sfInv_compute_err (fr : Nat → Res) (s : SFState) (t cid : Nat) (e : Nat)
    (hs : SFInv fr s) (hold : s.threads[t]? = some (PC.ownerCompute cid))
    (hfr : fr s.execCount = Except.error e) :
    SFInv fr { s with
      execCount := s.execCount + 1
      threads := s.threads.set t (PC.ownerPublish cid (Except.error e)) } := by
  obtain ⟨hcid0, hex0, hslot0⟩ := hs.pcOK t _ hold
  have hflight : s.flight = some 0 := hs.ownerFlight t _ hold rfl
  have hlen1 : s.slots.length = 1 := (hs.flightZero 0 hflight).2
  have hfr0 : fr 0 = Except.error e := by rw [← hex0]; exact hfr
  refine ⟨?_, ?_, ?_, ?_, ?_, ?_, ?_, ?_, ?_⟩
  · intro h
    have h2 : s.slots.length = 0 := h
    omega
  · intro c hc
    exact hs.flightZero c hc
  · intro w hw
    have hw2 : s.cache = some w := hw
    have := hs.cacheOK w hw2
    exact absurd (hex0.symm.trans this.1) (by decide)
  · intro r hr
    have hr2 : slotGet s 0 = some r := hr
    rw [hslot0] at hr2
    exact Option.noConfusion hr2
  · intro i pc hpc
    rcases threads_set_lookup s.threads t i _ pc hpc with ⟨_, hpe⟩ | ⟨hne, hpi⟩
    · rw [hpe]
      refine ⟨hcid0, ?_, hfr0.symm, hslot0⟩
      show s.execCount + 1 = 1
      omega
    · have hnotown := other_not_owner fr s hs t i _ pc hold rfl hpi hne
      have hp2 := hs.pcOK i pc hpi
      rcases nonowner_shape pc hnotown with h | h | ⟨c2, h⟩ | ⟨r2, h⟩
      · rw [h]; trivial
      · rw [h]; trivial
      · rw [h]
        rw [h] at hp2
        exact ⟨hp2.1, hp2.2⟩
      · rw [h] at hp2
        exact absurd (hex0.symm.trans hp2.1) (by decide)
  · intro i j pci pcj hi hj hoi hoj
    rcases threads_set_lookup s.threads t i _ pci hi with ⟨hit, hpe⟩ | ⟨hne, hpi⟩ <;>
      rcases threads_set_lookup s.threads t j _ pcj hj with ⟨hjt, hpe2⟩ | ⟨hne2, hpi2⟩
    · rw [hit, hjt]
    · have := other_not_owner fr s hs t j _ pcj hold rfl hpi2 hne2
      rw [this] at hoj
      exact Bool.noConfusion hoj
    · have := other_not_owner fr s hs t i _ pci hold rfl hpi hne
      rw [this] at hoi
      exact Bool.noConfusion hoi
    · exact hs.ownerUnique i j pci pcj hpi hpi2 hoi hoj
  · intro i pc hp hown
    rcases threads_set_lookup s.threads t i _ pc hp with ⟨_, hpe⟩ | ⟨hne, hpi⟩
    · exact hflight
    · have := other_not_owner fr s hs t i _ pc hold rfl hpi hne
      rw [this] at hown
      exact Bool.noConfusion hown
  · intro c hc
    exact ⟨t, PC.ownerPublish cid (Except.error e),
      threads_set_self s.threads t _ _ hold, rfl⟩
  · intro _ hfl
    have hfl2 : s.flight = none := hfl
    rw [hflight] at hfl2
    exact Option.noConfusion hfl2

/-- Preservation of the invariant by the owner's backend-write step. -/
theorem sfInv_store (fr : Nat → Res) (s : SFState) (t cid : Nat) (v : Nat)
    (hs : SFInv fr s) (hold : s.threads[t]? = some (PC.ownerStore cid v)) :
    SFInv fr { s with
      cache := some v
      threads := s.threads.set t (PC.ownerPublish cid (Except.ok v)) } := by
  obtain ⟨hcid0, hex1, hfr0, hslot0⟩ := hs.pcOK t _ hold
  have hflight : s.flight = some 0 := hs.ownerFlight t _ hold rfl
  have hlen1 : s.slots.length = 1 := (hs.flightZero 0 hflight).2
  refine ⟨?_, ?_, ?_, ?_, ?_, ?_, ?_, ?_, ?_⟩
  · intro h
    have h2 : s.slots.length = 0 := h
    omega
  · intro c hc
    exact hs.flightZero c hc
  · intro w hw
    have hw2 : some v = some w := hw
    rw [← Option.some.inj hw2]
    exact ⟨hex1, hfr0⟩
  · intro r hr
    exact hs.slotOK r hr
  · intro i pc hpc
    rcases threads_set_lookup s.threads t i _ pc hpc with ⟨_, hpe⟩ | ⟨hne, hpi⟩
    · rw [hpe]
      exact ⟨hcid0, hex1, hfr0.symm, hslot0⟩
    · have hp2 := hs.pcOK i pc hpi
      cases pc <;> exact hp2
  · intro i j pci pcj hi hj hoi hoj
    rcases threads_set_lookup s.threads t i _ pci hi with ⟨hit, hpe⟩ | ⟨hne, hpi⟩ <;>
      rcases threads_set_lookup s.threads t j _ pcj hj with ⟨hjt, hpe2⟩ | ⟨hne2, hpi2⟩
    · rw [hit, hjt]
    · have := other_not_owner fr s hs t j _ pcj hold rfl hpi2 hne2
      rw [this] at hoj
      exact Bool.noConfusion hoj
    · have := other_not_owner fr s hs t i _ pci hold rfl hpi hne
      rw [this] at hoi
      exact Bool.noConfusion hoi
    · exact hs.ownerUnique i j pci pcj hpi hpi2 hoi hoj
  · intro i pc hp hown
    rcases threads_set_lookup s.threads t i _ pc hp with ⟨_, hpe⟩ | ⟨hne, hpi⟩
    · exact hflight
    · have := other_not_owner fr s hs t i _ pc hold rfl hpi hne
      rw [this] at hown
      exact Bool.noConfusion hown
  · intro c hc
    exact ⟨t, PC.ownerPublish cid (Except.ok v),
      threads_set_self s.threads t _ _ hold, rfl⟩
  · intro _ hfl
    have hfl2 : s.flight = none := hfl
    rw [hflight] at hfl2
    exact Option.noConfusion hfl2

/-- Preservation of the invariant by the owner's slot-publishing step. -/
theorem sfInv_publish (fr : Nat → Res) (s : SFState) (t cid : Nat) (r : Res)
    (hs : SFInv fr s) (hold : s.threads[t]? = some (PC.ownerPublish cid r)) :
    SFInv fr { s with
      slots := s.slots.set cid (some r)
      threads := s.threads.set t (PC.ownerDelete cid r) } := by
  obtain ⟨hcid0, hex1, hrfr, hslot0⟩ := hs.pcOK t _ hold
  subst hcid0
  have hflight : s.flight = some 0 := hs.ownerFlight t _ hold rfl
  have hlen1 : s.slots.length = 1 := (hs.flightZero 0 hflight).2
  have hslotset : slotGet { s with
      slots := s.slots.set 0 (some r)
      threads := s.threads.set t (PC.ownerDelete 0 r) } 0 = some r := by
    show ((s.slots.set 0 (some r))[0]?).getD none = some r
    rw [List.getElem?_set_self (by omega : 0 < s.slots.length)]
    rfl
  refine ⟨?_, ?_, ?_, ?_, ?_, ?_, ?_, ?_, ?_⟩
  · intro h
    have h2 : (s.slots.set 0 (some r)).length = 0 := h
    rw [List.length_set] at h2
    omega
  · intro c hc
    refine ⟨(hs.flightZero c hc).1, ?_⟩
    show (s.slots.set 0 (some r)).length = 1
    rw [List.length_set]
    exact hlen1
  · intro w hw
    exact hs.cacheOK w hw
  · intro r2 hr2
    rw [hslotset] at hr2
    exact ⟨hex1, (Option.some.inj hr2) ▸ hrfr⟩
  · intro i pc hpc
    rcases threads_set_lookup s.threads t i _ pc hpc with ⟨_, hpe⟩ | ⟨hne, hpi⟩
    · rw [hpe]
      exact ⟨rfl, hex1, hrfr, hslotset⟩
    · have hnotown := other_not_owner fr s hs t i _ pc hold rfl hpi hne
      have hp2 := hs.pcOK i pc hpi
      rcases nonowner_shape pc hnotown with h | h | ⟨c2, h⟩ | ⟨r2, h⟩
      · rw [h]; trivial
      · rw [h]; trivial
      · rw [h]
        rw [h] at hp2
        refine ⟨hp2.1, ?_⟩
        show (s.slots.set 0 (some r)).length = 1
        rw [List.length_set]
        exact hp2.2
      · rw [h]
        rw [h] at hp2
        exact hp2
  · intro i j pci pcj hi hj hoi hoj
    rcases threads_set_lookup s.threads t i _ pci hi with ⟨hit, hpe⟩ | ⟨hne, hpi⟩ <;>
      rcases threads_set_lookup s.threads t j _ pcj hj with ⟨hjt, hpe2⟩ | ⟨hne2, hpi2⟩
    · rw [hit, hjt]
    · have := other_not_owner fr s hs t j _ pcj hold rfl hpi2 hne2
      rw [this] at hoj
      exact Bool.noConfusion hoj
    · have := other_not_owner fr s hs t i _ pci hold rfl hpi hne
      rw [this] at hoi
      exact Bool.noConfusion hoi
    · exact hs.ownerUnique i j pci pcj hpi hpi2 hoi hoj
  · intro i pc hp hown
    rcases threads_set_lookup s.threads t i _ pc hp with ⟨_, hpe⟩ | ⟨hne, hpi⟩
    · exact hflight
    · have := other_not_owner fr s hs t i _ pc hold rfl hpi hne
      rw [this] at hown
      exact Bool.noConfusion hown
  · intro c hc
    exact ⟨t, PC.ownerDelete 0 r, threads_set_self s.threads t _ _ hold, rfl⟩
  · intro _ hfl
    have hfl2 : s.flight = none := hfl
    rw [hflight] at hfl2
    exact Option.noConfusion hfl2

/-- Preservation of the invariant by the owner's deregistration step. -/
theorem sfInv_delete (fr : Nat → Res) (s : SFState) (t cid : Nat) (r : Res)
    (hs : SFInv fr s) (hold : s.threads[t]? = some (PC.ownerDelete cid r)) :
    SFInv fr { s with
      flight := none
      threads := s.threads.set t (PC.done r) } := by
  obtain ⟨hcid0, hex1, hrfr, hslotr⟩ := hs.pcOK t _ hold
  have hflight : s.flight = some 0 := hs.ownerFlight t _ hold rfl
  have hlen1 : s.slots.length = 1 := (hs.flightZero 0 hflight).2
  refine ⟨?_, ?_, ?_, ?_, ?_, ?_, ?_, ?_, ?_⟩
  · intro h
    have h2 : s.slots.length = 0 := h
    omega
  · intro c hc
    exact Option.noConfusion hc
  · intro w hw
    exact hs.cacheOK w hw
  · intro r2 hr2
    exact hs.slotOK r2 hr2
  · intro i pc hpc
    rcases threads_set_lookup s.threads t i _ pc hpc with ⟨_, hpe⟩ | ⟨hne, hpi⟩
    · rw [hpe]
      exact ⟨hex1, hrfr⟩
    · have hp2 := hs.pcOK i pc hpi
      cases pc <;> exact hp2
  · intro i j pci pcj hi hj hoi hoj
    rcases threads_set_lookup s.threads t i _ pci hi with ⟨hit, hpe⟩ | ⟨hne, hpi⟩ <;>
      rcases threads_set_lookup s.threads t j _ pcj hj with ⟨hjt, hpe2⟩ | ⟨hne2, hpi2⟩
    · rw [hit, hjt]
    · rw [hpe] at hoi
      exact Bool.noConfusion hoi
    · rw [hpe2] at hoj
      exact Bool.noConfusion hoj
    · exact hs.ownerUnique i j pci pcj hpi hpi2 hoi hoj
  · intro i pc hp hown
    rcases threads_set_lookup s.threads t i _ pc hp with ⟨_, hpe⟩ | ⟨hne, hpi⟩
    · rw [hpe] at hown
      exact Bool.noConfusion hown
    · exact absurd (hs.ownerUnique i t pc (PC.ownerDelete cid r) hpi hold hown rfl) hne
  · intro c hc
    exact Option.noConfusion hc
  · intro _ _
    exact ⟨r, hslotr⟩

/-- Transport of the invariant along a state equality. -/
theorem SFInv_congr (fr : Nat → Res) {a b : SFState} (h : a = b) (ha : SFInv fr a) :
    SFInv fr b := h ▸ ha

/-- One-step preservation of the invariant, along schedules that keep the
number of installed calls at most one. -/
theorem sfInv_step (fr : Nat → Res) (s : SFState) (t : Nat) (hs : SFInv fr s)
    (hk : (sfStep fr s t).slots.length ≤ 1) : SFInv fr (sfStep fr s t) := by
  cases hold : s.threads[t]? with
  | none =>
      have hstep : sfStep fr s t = s := by unfold sfStep; rw [hold]
      rw [hstep]
      exact hs
  | some pc =>
      cases pc with
      | start =>
          cases hc : s.cache with
          | some v =>
              have hstep : sfStep fr s t
                  = ⟨some v, s.flight, s.slots, s.execCount,
                      s.threads.set t (PC.done (Except.ok v))⟩ := by
                unfold sfStep; rw [hold, hc]
              have hv := hs.cacheOK v hc
              rw [hstep]
              exact SFInv_congr fr (by rw [← hc])
                (sfInv_threads_update fr s t PC.start (PC.done (Except.ok v)) hs hold
                  ⟨hv.1, hv.2.symm⟩ rfl)
          | none =>
              have hstep : sfStep fr s t
                  = ⟨none, s.flight, s.slots, s.execCount,
                      s.threads.set t PC.enterDo⟩ := by
                unfold sfStep; rw [hold, hc]
              rw [hstep]
              exact SFInv_congr fr (by rw [← hc])
                (sfInv_threads_update fr s t PC.start PC.enterDo hs hold trivial rfl)
      | enterDo =>
          cases hf : s.flight with
          | some cid =>
              have hstep : sfStep fr s t
                  = ⟨s.cache, some cid, s.slots, s.execCount,
                      s.threads.set t (PC.waiting cid)⟩ := by
                unfold sfStep; rw [hold, hf]
              have hcid := hs.flightZero cid hf
              rw [hstep]
              exact SFInv_congr fr (by rw [← hf])
                (sfInv_threads_update fr s t PC.enterDo (PC.waiting cid) hs hold
                  ⟨hcid.1, hcid.2⟩ rfl)
          | none =>
              have hstep : sfStep fr s t
                  = { s with
                      flight := some s.slots.length
                      slots := s.slots ++ [none]
                      threads := s.threads.set t (PC.ownerRecheck s.slots.length) } := by
                unfold sfStep; rw [hold, hf]
              rw [hstep] at hk ⊢
              have hk2 : (s.slots ++ [none]).length ≤ 1 := hk
              simp only [List.length_append, List.length_singleton] at hk2
              have hlen0 : s.slots.length = 0 := by omega
              exact sfInv_install fr s t hs hold hf hlen0
      | ownerRecheck cid =>
          obtain ⟨hcid0, hexec0, hslot0⟩ := hs.pcOK t _ hold
          cases hc : s.cache with
          | some v =>
              have := hs.cacheOK v hc
              exact absurd (hexec0.symm.trans this.1) (by decide)
          | none =>
              have hstep : sfStep fr s t
                  = ⟨none, s.flight, s.slots, s.execCount,
                      s.threads.set t (PC.ownerCompute cid)⟩ := by
                unfold sfStep; rw [hold, hc]
              rw [hstep]
              exact SFInv_congr fr (by rw [← hc])
                (sfInv_threads_update fr s t (PC.ownerRecheck cid) (PC.ownerCompute cid)
                  hs hold ⟨hcid0, hexec0, hslot0⟩ rfl)
      | ownerCompute cid =>
          cases hfr : fr s.execCount with
          | ok v =>
              have hstep : sfStep fr s t
                  = { s with
                      execCount := s.execCount + 1
                      threads := s.threads.set t (PC.ownerStore cid v) } := by
                unfold sfStep; rw [hold, hfr]
              rw [hstep]
              exact sfInv_compute_ok fr s t cid v hs hold hfr
          | error e =>
              have hstep : sfStep fr s t
                  = { s with
                      execCount := s.execCount + 1
                      threads := s.threads.set t (PC.ownerPublish cid (Except.error e)) } := by
                unfold sfStep; rw [hold, hfr]
              rw [hstep]
              exact sfInv_compute_err fr s t cid e hs hold hfr
      | ownerStore cid v =>
          have hstep : sfStep fr s t
              = { s with
                  cache := some v
                  threads := s.threads.set t (PC.ownerPublish cid (Except.ok v)) } := by
            unfold sfStep; rw [hold]
          rw [hstep]
          exact sfInv_store fr s t cid v hs hold
      | ownerPublish cid r =>
          have hstep : sfStep fr s t
              = { s with
                  slots := s.slots.set cid (some r)
                  threads := s.threads.set t (PC.ownerDelete cid r) } := by
            unfold sfStep; rw [hold]
          rw [hstep]
          exact sfInv_publish fr s t cid r hs hold
      | ownerDelete cid r =>
          have hstep : sfStep fr s t
              = { s with
                  flight := none
                  threads := s.threads.set t (PC.done r) } := by
            unfold sfStep; rw [hold]
          rw [hstep]
          exact sfInv_delete fr s t cid r hs hold
      | waiting cid =>
          cases hsl : slotGet s cid with
          | some r =>
              have hstep : sfStep fr s t
                  = { s with threads := s.threads.set t (PC.done r) } := by
                unfold sfStep
                rw [hold]
                show (match slotGet s cid with
                  | some r => { s with threads := s.threads.set t (PC.done r) }
                  | none => s) = { s with threads := s.threads.set t (PC.done r) }
                rw [hsl]
              obtain ⟨hcid0, hlen⟩ := hs.pcOK t _ hold
              have hres := hs.slotOK r (by rw [← hcid0]; exact hsl)
              rw [hstep]
              exact sfInv_threads_update fr s t (PC.waiting cid) (PC.done r) hs hold
                ⟨hres.1, hres.2⟩ rfl
          | none =>
              have hstep : sfStep fr s t = s := by
                unfold sfStep
                rw [hold]
                show (match slotGet s cid with
                  | some r => { s with threads := s.threads.set t (PC.done r) }
                  | none => s) = s
                rw [hsl]
              rw [hstep]
              exact hs
      | done r =>
          have hstep : sfStep fr s t = s := by
            unfold sfStep; rw [hold]
          rw [hstep]
          exact hs

/-- Threads of the initial state are all at start. -/
theorem replicate_start (n i : Nat) (pc : PC)
    (h : (List.replicate n PC.start)[i]? = some pc) : pc = PC.start := by
  simp [List.getElem?_replicate] at h
  exact h.2.symm

/-- The initial state satisfies the invariant. -/
theorem sfInv_init (fr : Nat → Res) (n : Nat) : SFInv fr (sfInit n) := by
  refine ⟨?_, ?_, ?_, ?_, ?_, ?_, ?_, ?_, ?_⟩
  · intro _
    exact ⟨rfl, rfl, rfl⟩
  · intro cid hc
    exact Option.noConfusion hc
  · intro v hv
    exact Option.noConfusion hv
  · intro r hr
    exact Option.noConfusion hr
  · intro i pc hp
    rw [replicate_start n i pc hp]
    trivial
  · intro i j pci pcj hi hj hoi hoj
    rw [replicate_start n i pci hi] at hoi
    exact Bool.noConfusion hoi
  · intro i pc hp hown
    rw [replicate_start n i pc hp] at hown
    exact Bool.noConfusion hown
  · intro cid hc
    exact Option.noConfusion hc
  · intro h _
    exact absurd (show (0 : Nat) = 1 from h) (by decide)

/-- The invariant holds after any run that installed at most one call. -/
theorem sfInv_run (fr : Nat → Res) (s : SFState) (sched : List Nat)
    (hs : SFInv fr s) (hk : (sfRun fr s sched).slots.length ≤ 1) :
    SFInv fr (sfRun fr s sched) := by
  induction sched generalizing s with
  | nil => exact hs
  | cons t rest ih =>
      have hstep : sfRun fr s (t :: rest) = sfRun fr (sfStep fr s t) rest := rfl
      rw [hstep] at hk ⊢
      refine ih (sfStep fr s t) ?_ hk
      exact sfInv_step fr s t hs (le_trans (sfRun_slots_mono fr (sfStep fr s t) rest) hk)

/-- C1: in the interleaving model of `Memoizer.Get` over `SingleFlight.Do`,
along any schedule whose callers all share one single-flight session (exactly
one call is ever installed) and that runs every thread to completion, the
compute function executes exactly once and every one of the `n` concurrent
callers returns exactly the value/error pair of that single execution. -/
theorem singleflight_once (fr : Nat → Res) (n : Nat) (sched : List Nat)
    (hdone : allDone (sfRun fr (sfInit n) sched) = true)
    (hone : (sfRun fr (sfInit n) sched).slots.length = 1) :
    (sfRun fr (sfInit n) sched).execCount = 1 ∧
    ∀ (i : Nat) (pc : PC), (sfRun fr (sfInit n) sched).threads[i]? = some pc →
      pc = PC.done (fr 0) := by
  have hinv := sfInv_run fr (sfInit n) sched (sfInv_init fr n) (le_of_eq hone)
  have hdone2 : ∀ (i : Nat) (pc : PC),
      (sfRun fr (sfInit n) sched).threads[i]? = some pc → isDone pc = true := by
    intro i pc hp
    exact List.all_eq_true.mp hdone pc (List.getElem?_mem hp)
  have hflight : (sfRun fr (sfInit n) sched).flight = none := by
    cases hf : (sfRun fr (sfInit n) sched).flight with
    | none => rfl
    | some cid =>
        obtain ⟨i, pc, hp, hown⟩ := hinv.flightOwner cid hf
        have hd := hdone2 i pc hp
        cases pc with
        | done r => exact Bool.noConfusion hown
        | start => exact Bool.noConfusion hd
        | enterDo => exact Bool.noConfusion hd
        | waiting c => exact Bool.noConfusion hd
        | ownerRecheck c => exact Bool.noConfusion hd
        | ownerCompute c => exact Bool.noConfusion hd
        | ownerStore c v => exact Bool.noConfusion hd
        | ownerPublish c r => exact Bool.noConfusion hd
        | ownerDelete c r => exact Bool.noConfusion hd
  obtain ⟨r0, hslot⟩ := hinv.donePublished hone hflight
  obtain ⟨hexec1, hr0⟩ := hinv.slotOK r0 hslot
  refine ⟨hexec1, ?_⟩
  intro i pc hp
  have hd := hdone2 i pc hp
  have hpc := hinv.pcOK i pc hp
  cases pc with
  | done r => rw [hpc.2]
  | start => exact Bool.noConfusion hd
  | enterDo => exact Bool.noConfusion hd
  | waiting c => exact Bool.noConfusion hd
  | ownerRecheck c => exact Bool.noConfusion hd
  | ownerCompute c => exact Bool.noConfusion hd
  | ownerStore c v => exact Bool.noConfusion hd
  | ownerPublish c r => exact Bool.noConfusion hd
  | ownerDelete c r => exact Bool.noConfusion hd

/-- C1 witness: two threads, a successful computation; thread 0 runs the
whole owner path, thread 1 then hits the populated cache. One slot was
installed, both threads finish with the computed value and one execution is
recorded. -/
theorem singleflight_once_witness :
    (sfRun (fun _ => Except.ok 7) (sfInit 2) [0, 0, 0, 0, 0, 0, 0, 1]).execCount = 1 ∧
    (sfRun (fun _ => Except.ok 7) (sfInit 2) [0, 0, 0, 0, 0, 0, 0, 1]).threads[0]?
      = some (PC.done (Except.ok 7)) := by
  have h := singleflight_once (fun _ => Except.ok 7) 2 [0, 0, 0, 0, 0, 0, 0, 1]
    (by decide) (by decide)
  refine ⟨h.1, ?_⟩
  have h0 : (sfRun (fun _ => Except.ok 7) (sfInit 2) [0, 0, 0, 0, 0, 0, 0, 1]).threads[0]?
      = some (PC.done (Except.ok 7)) := by decide
  exact h0

end Gomemo
